import Mathlib

/-!
# github-finder: the fetch-through user lookup of `src/App.jsx`

A shallow embedding of `fetchUser` (App.jsx, lines 13-47) together with the
cache it talks to.  The cache class itself (`LRUCache` of the package
`adev-lru`, imported on line 2) is not part of the repository's sources, so
`fetchUser` is written against an interface `CacheApi`, and the bounded TTL
cache that the specification describes is given as one instance of it.
-/

namespace GithubFinder

/-! ## JavaScript values -/

/-- A JSON value, the result of `response.json()` and what the cache stores.  The
program never computes with a number, so integers stand for the numbers. -/
inductive Json where
  | null
  | bool (b : Bool)
  | num (n : Int)
  | str (s : String)
  | arr (items : List Json)
  | obj (fields : List (String × Json))

/-- The test `user != null` of line 23, on the result of `cache.get`: `none`
stands for `undefined`, and both `undefined` and `null` fail the test.  When the
test passes the value is handed on. -/
def notNull : Option Json → Option Json
  | none => none
  | some Json.null => none
  | some v => some v

/-- The object literal `{ ...x, fromCache: b }` of lines 24 and 40: the own
properties of `x` spread into a fresh object, then the flag. -/
structure UserData where
  spread : Json
  fromCache : Bool

/-- WhiteSpace and LineTerminator code points, the ones `String.prototype.trim`
removes. -/
def isJsWhiteSpace (c : Char) : Bool :=
  c.toNat ∈ [0x09, 0x0A, 0x0B, 0x0C, 0x0D, 0x20, 0xA0, 0x1680, 0x2028, 0x2029,
    0x202F, 0x205F, 0x3000, 0xFEFF] || (0x2000 ≤ c.toNat && c.toNat ≤ 0x200A)

/-- The method `String.prototype.trim`. -/
def jsTrim (s : String) : String :=
  String.mk ((s.toList.dropWhile isJsWhiteSpace).reverse.dropWhile isJsWhiteSpace).reverse

/-- JavaScript truthiness of a string: the empty string is the only falsy one. -/
def truthy (s : String) : Bool := s != ""

/-! ## The cache -/

/-- One stored entry (spec, section 3). -/
structure CacheEntry where
  key : String
  value : Json
  insertedAt : Nat
  expiresAt : Nat

/-- Modelled from the spec: the class `LRUCache` of the package `adev-lru` is not
among the sources; this is the `BoundedTTLCache` of sections 3 and 4.1.  The
entries are kept in recency order, the least recently used one first and the
most recently used one last. -/
structure BoundedTTLCache where
  capacity : Nat
  ttl : Nat
  entries : List CacheEntry

/-- Modelled from the spec: a cache without entries, as constructed. -/
def BoundedTTLCache.empty (capacity ttl : Nat) : BoundedTTLCache :=
  { capacity := capacity, ttl := ttl, entries := [] }

/-- The keys held, least recently used first. -/
def BoundedTTLCache.keys (c : BoundedTTLCache) : List String :=
  c.entries.map CacheEntry.key

/-- The number of entries stored. -/
def BoundedTTLCache.size (c : BoundedTTLCache) : Nat :=
  c.entries.length

/-- The entries stored under other keys than `key`, their order kept. -/
def BoundedTTLCache.others (c : BoundedTTLCache) (key : String) : List CacheEntry :=
  c.entries.filter (fun e => e.key != key)

/-- Modelled from the spec: `get(key)` of section 4.1 at clock reading `now`.
Absent when no entry exists or its `expiresAt` has passed, and an expired
entry found is removed; a live entry is moved to the most recently used end
and its value returned. -/
def BoundedTTLCache.get (c : BoundedTTLCache) (now : Nat) (key : String) :
    Option Json × BoundedTTLCache :=
  match c.entries.find? (fun e => e.key == key) with
  | none => (none, c)
  | some e =>
    if e.expiresAt ≤ now then
      (none, { c with entries := c.others key })
    else
      (some e.value, { c with entries := c.others key ++ [e] })

/-- Modelled from the spec: `put(key, value)` of section 4.1 at clock reading
`now`.  The entry is inserted or overwritten with `insertedAt = now` and
`expiresAt = now + ttl` and becomes the most recently used one; when the key is
new and the insertion would exceed `capacity`, the least recently used entry is
evicted first. -/
def BoundedTTLCache.put (c : BoundedTTLCache) (now : Nat) (key : String) (value : Json) :
    BoundedTTLCache :=
  let e : CacheEntry :=
    { key := key, value := value, insertedAt := now, expiresAt := now + c.ttl }
  if c.entries.any (fun x => x.key == key) then
    { c with entries := c.others key ++ [e] }
  else if c.capacity < c.entries.length + 1 then
    { c with entries := c.entries.tail ++ [e] }
  else
    { c with entries := c.entries ++ [e] }

/-- A call made on the cache. -/
inductive CacheOp where
  | get (now : Nat) (key : String)
  | put (now : Nat) (key : String) (value : Json)

/-- The cache after one call. -/
def BoundedTTLCache.step (c : BoundedTTLCache) : CacheOp → BoundedTTLCache
  | CacheOp.get now key => (c.get now key).2
  | CacheOp.put now key value => c.put now key value

/-- The cache after a sequence of calls, made in order. -/
def BoundedTTLCache.run (c : BoundedTTLCache) (ops : List CacheOp) : BoundedTTLCache :=
  ops.foldl BoundedTTLCache.step c

/-- The cache after a sequence of `put` calls, each given as the clock reading,
the key and the value. -/
def BoundedTTLCache.putAll (c : BoundedTTLCache) (puts : List (Nat × String × Json)) :
    BoundedTTLCache :=
  puts.foldl (fun acc p => acc.put p.1 p.2.1 p.2.2) c

/-- The expiry time of the entry `get(key)` would find, if there is one. -/
def BoundedTTLCache.expiry (c : BoundedTTLCache) (key : String) : Option Nat :=
  (c.entries.find? (fun e => e.key == key)).map CacheEntry.expiresAt

/-- The clock reading at which a call is made. -/
def CacheOp.now : CacheOp → Nat
  | CacheOp.get now _ => now
  | CacheOp.put now _ _ => now

/-- The keys a `put(key, value)` at `now` evicts: the keys held before the call
that are no longer held after it. -/
def BoundedTTLCache.evicted (c : BoundedTTLCache) (now : Nat) (key : String) (value : Json) :
    List String :=
  c.keys.filter (fun k => !(c.put now key value).keys.contains k)

/-- The keys evicted by the `put` calls among a sequence of calls, in order. -/
def BoundedTTLCache.evictions : BoundedTTLCache → List CacheOp → List String
  | _, [] => []
  | c, CacheOp.get now key :: ops => BoundedTTLCache.evictions (c.get now key).2 ops
  | c, CacheOp.put now key value :: ops =>
    c.evicted now key value ++ BoundedTTLCache.evictions (c.put now key value) ops

/-- The keys of a history of uses, each once, from the least recently used to the
most recently used: every use moves its key to the end. -/
def recency (uses : List String) : List String :=
  uses.foldl (fun acc k => acc.filter (fun x => x != k) ++ [k]) []

/-- Whether the call is a `put` under `key`. -/
def CacheOp.putsKey (key : String) : CacheOp → Bool
  | CacheOp.get _ _ => false
  | CacheOp.put _ k _ => k == key

/-- The two methods `fetchUser` calls on the cache object, with the clock
reading at which the call runs. -/
structure CacheApi (C : Type) where
  get : C → Nat → String → Option Json × C
  put : C → Nat → String → Json → C

/-- The cache of the specification behind the interface `fetchUser` uses. -/
def boundedApi : CacheApi BoundedTTLCache :=
  { get := BoundedTTLCache.get, put := BoundedTTLCache.put }

/-- The instance built on line 4: `new LRUCache({ max: 10, ttl: 60000 })`. -/
def cache : BoundedTTLCache := BoundedTTLCache.empty 10 60000

/-! ## `fetchUser` -/

/-- The part of a `Response` the program reads: the flag `ok` and the outcome of
`response.json()`, a rejection message or the decoded body. -/
structure Response where
  ok : Bool
  json : Except String Json

/-- What the outside world supplies to one call of `fetchUser`: the clock
readings and the network.  `clockStart` is the reading of line 18 and `clockEnd`
the one of line 25 or 37; `clockGet` and `clockPut` are the times at which the
cache runs the `get` of line 22 and the `put` of line 35.  `fetch` maps a URL to
the message of the rejection or to the response. -/
structure Env where
  clockStart : Nat
  clockGet : Nat
  clockPut : Nat
  clockEnd : Nat
  fetch : String → Except String Response

/-- The component state of `App` (lines 7-11). -/
structure UiState where
  username : String
  userData : Option UserData
  loading : Bool
  error : String
  requestTime : Option Int

/-- A call `fetchUser` makes on the cache or on the network. -/
inductive Event where
  | cacheGet (key : String)
  | fetch (url : String)
  | cachePut (key : String) (value : Json)

/-- The template literal of line 31. -/
def userUrl (username : String) : String :=
  "https://api.github.com/users/" ++ username

/-- Lines 31-34: the request, the `ok` check and the decoding.  An `error` is
the message of what the `try` block throws. -/
def lookup (env : Env) (username : String) : Except String Json :=
  match env.fetch (userUrl username) with
  | Except.error msg => Except.error msg
  | Except.ok response =>
    if !response.ok then Except.error "User not found"
    else
      match response.json with
      | Except.error msg => Except.error msg
      | Except.ok data => Except.ok data

/-- The `finally` block, line 45. -/
def finallyBlock (s : UiState) : UiState :=
  { s with loading := false }

/-- The function `fetchUser` of lines 13-47, run on the component state `s` and the
cache `c`: the state and cache it leaves and the calls it made, in order.  The
state setters are applied in the order of the source; the two cache methods
return without throwing (spec, section 7). -/
def fetchUser {C : Type} (api : CacheApi C) (env : Env) (s : UiState) (c : C) :
    UiState × C × List Event :=
  if !truthy (jsTrim s.username) then (s, c, [])
  else
    let s1 : UiState := { s with loading := true }
    let s2 : UiState := { s1 with error := "" }
    let startTime : Int := env.clockStart
    let got := api.get c env.clockGet s.username
    match notNull got.1 with
    | some user =>
      let s3 : UiState := { s2 with userData := some { spread := user, fromCache := true } }
      let endTime : Int := env.clockEnd
      let s4 : UiState := { s3 with requestTime := some (endTime - startTime) }
      let s5 : UiState := { s4 with loading := false }
      (finallyBlock s5, got.2, [Event.cacheGet s.username])
    | none =>
      match lookup env s.username with
      | Except.ok data =>
        let c1 := api.put got.2 env.clockPut s.username data
        let endTime : Int := env.clockEnd
        let s3 : UiState := { s2 with requestTime := some (endTime - startTime) }
        let s4 : UiState := { s3 with userData := some { spread := data, fromCache := false } }
        (finallyBlock s4, c1,
          [Event.cacheGet s.username, Event.fetch (userUrl s.username),
            Event.cachePut s.username data])
      | Except.error message =>
        let s3 : UiState := { s2 with error := message }
        let s4 : UiState := { s3 with userData := none }
        (finallyBlock s4, got.2,
          [Event.cacheGet s.username, Event.fetch (userUrl s.username)])

/-- Whether the event is a call of `cache.put`. -/
def Event.isPut : Event → Bool
  | Event.cachePut _ _ => true
  | _ => false

/-- Whether the event is a call of the external lookup. -/
def Event.isFetch : Event → Bool
  | Event.fetch _ => true
  | _ => false

/-! ## Sample runs -/

/-- A user record as the GitHub API returns one, cut down to two fields. -/
def octocat : Json :=
  Json.obj [("login", Json.str "octocat"), ("followers", Json.num 42)]

/-- The component state right after `username` was typed into a freshly mounted
component. -/
def typed (username : String) : UiState :=
  { username := username, userData := none, loading := false, error := "",
    requestTime := none }

/-- A network that answers every request with status 200 and the body `body`. -/
def netOk (body : Json) : String → Except String Response :=
  fun _ => Except.ok { ok := true, json := Except.ok body }

/-- A network that answers every request with status 404. -/
def netNotFound : String → Except String Response :=
  fun _ => Except.ok
    { ok := false, json := Except.ok (Json.obj [("message", Json.str "Not Found")]) }

/-- A network on which every request is rejected. -/
def netDown : String → Except String Response :=
  fun _ => Except.error "Failed to fetch"

/-- A network that answers the request for `url` with status 200 and the body
`body`, and on which every other request is rejected. -/
def netOnly (url : String) (body : Json) : String → Except String Response :=
  fun asked =>
    if asked = url then Except.ok { ok := true, json := Except.ok body }
    else Except.error "Failed to fetch"

/-- A call that starts at `start`, reaches the cache one millisecond later,
stores `took - 1` milliseconds after the start and ends `took` milliseconds
after it. -/
def envAt (start took : Nat) (net : String → Except String Response) : Env :=
  { clockStart := start, clockGet := start + 1, clockPut := start + took - 1,
    clockEnd := start + took, fetch := net }

/-- The configured cache after `octocat` was stored at time 0. -/
def warm : BoundedTTLCache := cache.put 0 "octocat" octocat

/-- The configured cache holding two users, `octocat` stored first. -/
def twoUsers : BoundedTTLCache := warm.put 5 "torvalds" (Json.obj [("login", Json.str "torvalds")])

/-- The component state after an earlier lookup that took five milliseconds, with
another user name typed in since. -/
def afterEarlier (username : String) : UiState :=
  { username := username, userData := some { spread := octocat, fromCache := true },
    loading := false, error := "", requestTime := some 5 }

/-- Thirteen `put` calls, one a second, under twelve user names: the eleventh call
stores again under the name stored first. -/
def thirteen : List (Nat × String × Json) :=
  [(1000, "u1", Json.str "a"), (2000, "u2", Json.str "b"), (3000, "u3", Json.str "c"),
   (4000, "u4", Json.str "d"), (5000, "u5", Json.str "e"), (6000, "u6", Json.str "f"),
   (7000, "u7", Json.str "g"), (8000, "u8", Json.str "h"), (9000, "u9", Json.str "i"),
   (10000, "u10", Json.str "j"), (10500, "u1", Json.str "z"), (11000, "u11", Json.str "k"),
   (12000, "u12", Json.str "l")]

/-! ## Lemmas on `fetchUser` -/

theorem truthy_iff (s : String) : truthy s = true ↔ s ≠ "" := by
  simp [truthy]

theorem notNull_of_present {r : Option Json} {user : Json} (h : r = some user)
    (hn : user ≠ Json.null) : notNull r = some user := by
  subst h
  cases user <;> simp_all [notNull]

theorem fetchUser_blank {C : Type} (api : CacheApi C) (env : Env) (s : UiState) (c : C)
    (h : jsTrim s.username = "") : fetchUser api env s c = (s, c, []) := by
  simp [fetchUser, truthy, h]

theorem fetchUser_hit_eq {C : Type} (api : CacheApi C) (env : Env) (s : UiState) (c : C)
    (user : Json) (hkey : jsTrim s.username ≠ "")
    (hget : notNull (api.get c env.clockGet s.username).1 = some user) :
    fetchUser api env s c =
      ({ username := s.username, userData := some { spread := user, fromCache := true },
         loading := false, error := "",
         requestTime := some ((env.clockEnd : Int) - (env.clockStart : Int)) },
       (api.get c env.clockGet s.username).2, [Event.cacheGet s.username]) := by
  have hk : truthy (jsTrim s.username) = true := (truthy_iff _).2 hkey
  simp [fetchUser, hk, hget, finallyBlock]

theorem fetchUser_miss_ok_eq {C : Type} (api : CacheApi C) (env : Env) (s : UiState) (c : C)
    (data : Json) (hkey : jsTrim s.username ≠ "")
    (hget : notNull (api.get c env.clockGet s.username).1 = none)
    (hlook : lookup env s.username = Except.ok data) :
    fetchUser api env s c =
      ({ username := s.username, userData := some { spread := data, fromCache := false },
         loading := false, error := "",
         requestTime := some ((env.clockEnd : Int) - (env.clockStart : Int)) },
       api.put (api.get c env.clockGet s.username).2 env.clockPut s.username data,
       [Event.cacheGet s.username, Event.fetch (userUrl s.username),
         Event.cachePut s.username data]) := by
  have hk : truthy (jsTrim s.username) = true := (truthy_iff _).2 hkey
  simp [fetchUser, hk, hget, hlook, finallyBlock]

theorem fetchUser_miss_error_eq {C : Type} (api : CacheApi C) (env : Env) (s : UiState)
    (c : C) (message : String) (hkey : jsTrim s.username ≠ "")
    (hget : notNull (api.get c env.clockGet s.username).1 = none)
    (hlook : lookup env s.username = Except.error message) :
    fetchUser api env s c =
      ({ username := s.username, userData := none, loading := false, error := message,
         requestTime := s.requestTime },
       (api.get c env.clockGet s.username).2,
       [Event.cacheGet s.username, Event.fetch (userUrl s.username)]) := by
  have hk : truthy (jsTrim s.username) = true := (truthy_iff _).2 hkey
  simp [fetchUser, hk, hget, hlook, finallyBlock]

theorem lookup_ok (env : Env) (username : String) (data : Json)
    (h : env.fetch (userUrl username) = Except.ok { ok := true, json := Except.ok data }) :
    lookup env username = Except.ok data := by
  simp [lookup, h]

theorem lookup_error (env : Env) (username message : String)
    (h : env.fetch (userUrl username) = Except.error message ∨
      (∃ r, env.fetch (userUrl username) = Except.ok r ∧ r.ok = false ∧
        message = "User not found") ∨
      (∃ r, env.fetch (userUrl username) = Except.ok r ∧ r.ok = true ∧
        r.json = Except.error message)) :
    lookup env username = Except.error message := by
  rcases h with h | ⟨r, h, hr, hm⟩ | ⟨r, h, hr, hm⟩
  · simp [lookup, h]
  · simp [lookup, h, hr, hm]
  · simp [lookup, h, hr, hm]

theorem fetchUser_username {C : Type} (api : CacheApi C) (env : Env) (s : UiState) (c : C) :
    (fetchUser api env s c).1.username = s.username := by
  unfold fetchUser
  split
  · rfl
  · dsimp only
    split
    · rfl
    · split <;> rfl

theorem fetchUser_hit_next {C : Type} (api : CacheApi C) (env : Env) (s : UiState) (c : C)
    (user : Json) (u : String) (hu : s.username = u) (hkey : jsTrim u ≠ "")
    (hget : notNull (api.get c env.clockGet u).1 = some user) :
    (fetchUser api env s c).1.userData = some { spread := user, fromCache := true } ∧
    (fetchUser api env s c).2.2 = [Event.cacheGet u] := by
  subst hu
  rw [fetchUser_hit_eq api env s c user hkey hget]
  exact ⟨rfl, rfl⟩

theorem fetchUser_miss_next {C : Type} (api : CacheApi C) (env : Env) (s : UiState) (c : C)
    (u : String) (hu : s.username = u) (hkey : jsTrim u ≠ "")
    (hget : notNull (api.get c env.clockGet u).1 = none) :
    ∃ rest, (fetchUser api env s c).2.2 = Event.cacheGet u :: Event.fetch (userUrl u) :: rest := by
  subst hu
  cases hlook : lookup env s.username with
  | ok data =>
    rw [fetchUser_miss_ok_eq api env s c data hkey hget hlook]
    exact ⟨_, rfl⟩
  | error message =>
    rw [fetchUser_miss_error_eq api env s c message hkey hget hlook]
    exact ⟨_, rfl⟩

theorem fetchUser_congr {C : Type} (api : CacheApi C) (env other : Env) (s : UiState)
    (c : C) (hstart : other.clockStart = env.clockStart)
    (hget : other.clockGet = env.clockGet) (hput : other.clockPut = env.clockPut)
    (hend : other.clockEnd = env.clockEnd)
    (hfetch : other.fetch (userUrl s.username) = env.fetch (userUrl s.username)) :
    fetchUser api other s c = fetchUser api env s c := by
  simp only [fetchUser, lookup, hstart, hget, hput, hend, hfetch]

/-! ## Lemmas on the cache -/

theorem find_others (c : BoundedTTLCache) (key : String) :
    (c.others key).find? (fun e => e.key == key) = none := by
  simp [BoundedTTLCache.others]

theorem find_append_new (l : List CacheEntry) (e : CacheEntry) (key : String)
    (hl : l.find? (fun x => x.key == key) = none) (he : e.key = key) :
    (l ++ [e]).find? (fun x => x.key == key) = some e := by
  simp [List.find?_append, hl, he]

theorem get_absent (c : BoundedTTLCache) (now : Nat) (key : String)
    (h : c.entries.find? (fun e => e.key == key) = none) : c.get now key = (none, c) := by
  simp [BoundedTTLCache.get, h]

theorem get_expired (c : BoundedTTLCache) (now : Nat) (key : String) (e : CacheEntry)
    (h : c.entries.find? (fun e => e.key == key) = some e) (hexp : e.expiresAt ≤ now) :
    c.get now key = (none, { c with entries := c.others key }) := by
  simp [BoundedTTLCache.get, h, hexp]

theorem get_live (c : BoundedTTLCache) (now : Nat) (key : String) (e : CacheEntry)
    (h : c.entries.find? (fun e => e.key == key) = some e) (hlive : now < e.expiresAt) :
    c.get now key = (some e.value, { c with entries := c.others key ++ [e] }) := by
  simp [BoundedTTLCache.get, h, Nat.not_le.2 hlive]

theorem find_none_of_not_mem (c : BoundedTTLCache) (key : String) (h : key ∉ c.keys) :
    c.entries.find? (fun e => e.key == key) = none := by
  simp only [BoundedTTLCache.keys, List.mem_map, not_exists, not_and] at h
  simp only [List.find?_eq_none, beq_iff_eq]
  intro x hx hk
  exact h x hx hk

theorem find_put (c : BoundedTTLCache) (now : Nat) (key : String) (value : Json) :
    (c.put now key value).entries.find? (fun e => e.key == key) =
      some { key := key, value := value, insertedAt := now, expiresAt := now + c.ttl } := by
  unfold BoundedTTLCache.put
  dsimp only
  split
  · exact find_append_new _ _ key (find_others c key) rfl
  · rename_i hany
    have hnone : ∀ x ∈ c.entries, ¬ (x.key == key) = true := by
      simpa using hany
    split
    · apply find_append_new _ _ key _ rfl
      rw [List.find?_eq_none]
      intro x hx
      exact hnone x (List.mem_of_mem_tail hx)
    · apply find_append_new _ _ key _ rfl
      rw [List.find?_eq_none]
      exact hnone

theorem put_capacity (c : BoundedTTLCache) (now : Nat) (key : String) (value : Json) :
    (c.put now key value).capacity = c.capacity := by
  unfold BoundedTTLCache.put
  dsimp only
  split
  · rfl
  · split <;> rfl

theorem get_ttl (c : BoundedTTLCache) (now : Nat) (key : String) :
    (c.get now key).2.ttl = c.ttl := by
  unfold BoundedTTLCache.get
  split
  · rfl
  · split <;> rfl

theorem get_capacity (c : BoundedTTLCache) (now : Nat) (key : String) :
    (c.get now key).2.capacity = c.capacity := by
  unfold BoundedTTLCache.get
  split
  · rfl
  · split <;> rfl

theorem get_put_live (c : BoundedTTLCache) (now later : Nat) (key : String) (value : Json)
    (h : later < now + c.ttl) : ((c.put now key value).get later key).1 = some value := by
  rw [get_live _ later key _ (find_put c now key value) h]

theorem get_after_miss (c : BoundedTTLCache) (now later : Nat) (key : String)
    (h : notNull (c.get now key).1 = none) :
    notNull ((c.get now key).2.get later key).1 = none := by
  cases hfind : c.entries.find? (fun e => e.key == key) with
  | none =>
    rw [get_absent c now key hfind]
    dsimp only
    rw [get_absent c later key hfind]
    rfl
  | some e =>
    have hek : e.key = key := by simpa using List.find?_some hfind
    by_cases hexp : e.expiresAt ≤ now
    · rw [get_expired c now key e hfind hexp]
      dsimp only
      rw [get_absent _ later key (find_others c key)]
      rfl
    · have hlive : now < e.expiresAt := Nat.not_le.1 hexp
      rw [get_live c now key e hfind hlive] at h ⊢
      dsimp only at h ⊢
      have hfind2 : (c.others key ++ [e]).find? (fun x => x.key == key) = some e :=
        find_append_new _ e key (find_others c key) hek
      by_cases hexp2 : e.expiresAt ≤ later
      · rw [get_expired _ later key e hfind2 hexp2]
        rfl
      · rw [get_live _ later key e hfind2 (Nat.not_le.1 hexp2)]
        exact h

theorem get_after_hit (c : BoundedTTLCache) (now later : Nat) (key : String) (user : Json)
    (expires : Nat) (h : (c.get now key).1 = some user) (hexp : c.expiry key = some expires)
    (hlater : later < expires) : ((c.get now key).2.get later key).1 = some user := by
  cases hfind : c.entries.find? (fun e => e.key == key) with
  | none =>
    rw [get_absent c now key hfind] at h
    simp at h
  | some e =>
    have hek : e.key = key := by simpa using List.find?_some hfind
    have hee : e.expiresAt = expires := by
      simpa [BoundedTTLCache.expiry, hfind] using hexp
    by_cases hexp1 : e.expiresAt ≤ now
    · rw [get_expired c now key e hfind hexp1] at h
      simp at h
    · rw [get_live c now key e hfind (Nat.not_le.1 hexp1)] at h ⊢
      dsimp only at h ⊢
      have hfind2 : (c.others key ++ [e]).find? (fun x => x.key == key) = some e :=
        find_append_new _ e key (find_others c key) hek
      rw [get_live _ later key e hfind2 (hee ▸ hlater)]
      exact h

theorem mem_get_entries (c : BoundedTTLCache) (now : Nat) (key : String) (x : CacheEntry)
    (h : x ∈ (c.get now key).2.entries) : x ∈ c.entries := by
  unfold BoundedTTLCache.get at h
  split at h
  · exact h
  · rename_i e hfind
    split at h
    · exact (List.mem_filter.1 h).1
    · rcases List.mem_append.1 h with h | h
      · exact (List.mem_filter.1 h).1
      · rw [List.mem_singleton.1 h]
        exact List.mem_of_find?_eq_some hfind

theorem mem_put_entries (c : BoundedTTLCache) (now : Nat) (key : String) (value : Json)
    (x : CacheEntry) (h : x ∈ (c.put now key value).entries) :
    (x ∈ c.entries ∧ x.key ≠ key) ∨
      x = { key := key, value := value, insertedAt := now, expiresAt := now + c.ttl } := by
  unfold BoundedTTLCache.put at h
  dsimp only at h
  split at h
  · rcases List.mem_append.1 h with h | h
    · have := List.mem_filter.1 h
      exact Or.inl ⟨this.1, by simpa using this.2⟩
    · exact Or.inr (List.mem_singleton.1 h)
  · rename_i hany
    have hnone : ∀ y ∈ c.entries, ¬ (y.key == key) = true := by
      simpa using hany
    split at h
    · rcases List.mem_append.1 h with h | h
      · have hx := List.mem_of_mem_tail h
        exact Or.inl ⟨hx, by simpa using hnone x hx⟩
      · exact Or.inr (List.mem_singleton.1 h)
    · rcases List.mem_append.1 h with h | h
      · exact Or.inl ⟨h, by simpa using hnone x h⟩
      · exact Or.inr (List.mem_singleton.1 h)

theorem run_tagged (ops : List CacheOp) (c : BoundedTTLCache) (k : String) (v : Json)
    (expires : Nat) (hno : ∀ op ∈ ops, op.putsKey k = false)
    (hc : ∀ e ∈ c.entries, e.key = k → e.value = v ∧ e.expiresAt = expires) :
    ∀ e ∈ (c.run ops).entries, e.key = k → e.value = v ∧ e.expiresAt = expires := by
  induction ops generalizing c with
  | nil => exact hc
  | cons op ops ih =>
    show ∀ e ∈ ((c.step op).run ops).entries, _
    apply ih
    · intro o ho
      exact hno o (List.mem_cons_of_mem _ ho)
    · intro e he hek
      cases op with
      | get now key => exact hc e (mem_get_entries c now key e he) hek
      | put now key value =>
        have hkey : key ≠ k := by
          have := hno (CacheOp.put now key value) (List.mem_cons_self _ _)
          simpa [CacheOp.putsKey] using this
        rcases mem_put_entries c now key value e he with h | h
        · exact hc e h.1 hek
        · rw [h] at hek
          exact absurd hek hkey

theorem put_tagged (c : BoundedTTLCache) (now : Nat) (k : String) (v : Json) :
    ∀ e ∈ (c.put now k v).entries, e.key = k → e.value = v ∧ e.expiresAt = now + c.ttl := by
  intro e he hek
  rcases mem_put_entries c now k v e he with h | h
  · exact absurd hek h.2
  · rw [h]
    exact ⟨rfl, rfl⟩

theorem get_tagged (c : BoundedTTLCache) (k : String) (v : Json) (expires later : Nat)
    (hc : ∀ e ∈ c.entries, e.key = k → e.value = v ∧ e.expiresAt = expires) :
    (expires ≤ later → (c.get later k).1 = none) ∧
    (later < expires → k ∈ c.keys → (c.get later k).1 = some v) := by
  cases hfind : c.entries.find? (fun e => e.key == k) with
  | none =>
    refine ⟨fun _ => by rw [get_absent c later k hfind], fun _ hmem => ?_⟩
    rw [List.find?_eq_none] at hfind
    simp only [BoundedTTLCache.keys, List.mem_map] at hmem
    obtain ⟨e, he, hek⟩ := hmem
    exact absurd (by simpa using hek) (hfind e he)
  | some e =>
    have hek : e.key = k := by simpa using List.find?_some hfind
    have hev := hc e (List.mem_of_find?_eq_some hfind) hek
    refine ⟨fun h => ?_, fun h _ => ?_⟩
    · rw [get_expired c later k e hfind (hev.2 ▸ h)]
    · rw [get_live c later k e hfind (hev.2 ▸ h), hev.1]

theorem keys_put_new (c : BoundedTTLCache) (now : Nat) (key : String) (value : Json)
    (hnew : key ∉ c.keys) :
    (c.put now key value).keys =
      if c.capacity < c.size + 1 then c.keys.tail ++ [key] else c.keys ++ [key] := by
  have hany : c.entries.any (fun x => x.key == key) = false := by
    rw [List.any_eq_false]
    have := find_none_of_not_mem c key hnew
    rwa [List.find?_eq_none] at this
  unfold BoundedTTLCache.put
  dsimp only
  rw [if_neg (by simp [hany])]
  unfold BoundedTTLCache.size
  split <;> simp [BoundedTTLCache.keys]

theorem putAll_snoc (c : BoundedTTLCache) (puts : List (Nat × String × Json))
    (p : Nat × String × Json) :
    c.putAll (puts ++ [p]) = (c.putAll puts).put p.1 p.2.1 p.2.2 := by
  simp [BoundedTTLCache.putAll, List.foldl_append]

theorem putAll_capacity (puts : List (Nat × String × Json)) (c : BoundedTTLCache) :
    (c.putAll puts).capacity = c.capacity := by
  induction puts generalizing c with
  | nil => rfl
  | cons p puts ih =>
    show ((c.put p.1 p.2.1 p.2.2).putAll puts).capacity = c.capacity
    rw [ih, put_capacity]

theorem size_eq_length_keys (c : BoundedTTLCache) : c.size = c.keys.length := by
  simp [BoundedTTLCache.size, BoundedTTLCache.keys]

theorem keys_others (c : BoundedTTLCache) (key : String) :
    (c.others key).map CacheEntry.key = c.keys.filter (fun k => k != key) := by
  simp [BoundedTTLCache.others, BoundedTTLCache.keys, List.filter_map, Function.comp_def]

theorem keys_put_old (c : BoundedTTLCache) (now : Nat) (key : String) (value : Json)
    (hold : key ∈ c.keys) :
    (c.put now key value).keys = c.keys.filter (fun k => k != key) ++ [key] := by
  have hany : c.entries.any (fun x => x.key == key) = true := by
    rw [List.any_eq_true]
    simp only [BoundedTTLCache.keys, List.mem_map] at hold
    obtain ⟨e, he, hek⟩ := hold
    exact ⟨e, he, by simp [hek]⟩
  unfold BoundedTTLCache.put
  dsimp only
  rw [if_pos hany]
  show (c.others key ++ _).map CacheEntry.key = _
  rw [List.map_append, keys_others]
  rfl

theorem length_filter_ne (l : List String) (key : String) (hmem : key ∈ l) (hnd : l.Nodup) :
    (l.filter (fun k => k != key)).length + 1 = l.length := by
  rw [← List.Nodup.erase_eq_filter hnd key, List.length_erase_of_mem hmem]
  have : 0 < l.length := List.length_pos_of_mem hmem
  omega

theorem put_nodup (c : BoundedTTLCache) (now : Nat) (key : String) (value : Json)
    (hnd : c.keys.Nodup) : (c.put now key value).keys.Nodup := by
  by_cases hold : key ∈ c.keys
  · rw [keys_put_old c now key value hold]
    refine List.nodup_append.2 ⟨hnd.filter _, List.nodup_singleton _, ?_⟩
    intro k hk hk1
    rw [List.mem_singleton.1 hk1] at hk
    simpa using (List.mem_filter.1 hk).2
  · rw [keys_put_new c now key value hold]
    split
    · refine List.nodup_append.2 ⟨hnd.sublist (List.tail_sublist _), List.nodup_singleton _, ?_⟩
      intro k hk hk1
      rw [List.mem_singleton.1 hk1] at hk
      exact hold (List.mem_of_mem_tail hk)
    · refine List.nodup_append.2 ⟨hnd, List.nodup_singleton _, ?_⟩
      intro k hk hk1
      rw [List.mem_singleton.1 hk1] at hk
      exact hold hk

theorem put_size (c : BoundedTTLCache) (now : Nat) (key : String) (value : Json)
    (hcap : 0 < c.capacity) (hsize : c.size ≤ c.capacity) (hnd : c.keys.Nodup) :
    (c.put now key value).size =
      if key ∈ c.keys then c.size else min (c.size + 1) c.capacity := by
  rw [size_eq_length_keys (c.put now key value)]
  split
  · rename_i hold
    rw [keys_put_old c now key value hold, List.length_append, List.length_singleton,
      length_filter_ne _ _ hold hnd, size_eq_length_keys]
  · rename_i hold
    rw [keys_put_new c now key value hold]
    rw [size_eq_length_keys] at hsize ⊢
    split
    · rw [List.length_append, List.length_singleton, List.length_tail]
      omega
    · rw [List.length_append, List.length_singleton]
      omega

theorem mem_keys_put (c : BoundedTTLCache) (now : Nat) (key : String) (value : Json) :
    key ∈ (c.put now key value).keys := by
  have h := List.mem_of_find?_eq_some (find_put c now key value)
  exact List.mem_map.2 ⟨_, h, rfl⟩

theorem keys_subset_put (c : BoundedTTLCache) (now : Nat) (key : String) (value : Json)
    (hroom : c.size < c.capacity) (k : String) (hk : k ∈ c.keys) :
    k ∈ (c.put now key value).keys := by
  by_cases hold : key ∈ c.keys
  · rw [keys_put_old c now key value hold]
    by_cases hkk : k = key
    · simp [hkk]
    · exact List.mem_append_left _ (List.mem_filter.2 ⟨hk, by simpa using hkk⟩)
  · rw [keys_put_new c now key value hold, if_neg (by omega)]
    exact List.mem_append_left _ hk

theorem length_others_lt (c : BoundedTTLCache) (key : String) (e : CacheEntry)
    (he : e ∈ c.entries) (hek : e.key = key) : (c.others key).length < c.entries.length := by
  unfold BoundedTTLCache.others
  rw [List.length_filter_lt_length_iff_exists]
  exact ⟨e, he, by simp [hek]⟩

theorem put_size_le (c : BoundedTTLCache) (now : Nat) (key : String) (value : Json)
    (hcap : 0 < c.capacity) (hsize : c.size ≤ c.capacity) :
    (c.put now key value).size ≤ c.capacity := by
  unfold BoundedTTLCache.size at hsize ⊢
  unfold BoundedTTLCache.put
  dsimp only
  split
  · rename_i hany
    obtain ⟨e, he, hek⟩ := List.any_eq_true.1 hany
    have := length_others_lt c key e he (by simpa using hek)
    rw [List.length_append, List.length_singleton]
    omega
  · split
    · rw [List.length_append, List.length_singleton, List.length_tail]
      omega
    · rw [List.length_append, List.length_singleton]
      omega

theorem get_size_le (c : BoundedTTLCache) (now : Nat) (key : String) :
    (c.get now key).2.size ≤ c.size := by
  cases hfind : c.entries.find? (fun e => e.key == key) with
  | none =>
    rw [get_absent c now key hfind]
  | some e =>
    have hlt := length_others_lt c key e (List.mem_of_find?_eq_some hfind)
      (by simpa using List.find?_some hfind)
    by_cases hexp : e.expiresAt ≤ now
    · rw [get_expired c now key e hfind hexp]
      exact Nat.le_of_lt hlt
    · rw [get_live c now key e hfind (Nat.not_le.1 hexp)]
      show (c.others key ++ [e]).length ≤ c.entries.length
      rw [List.length_append, List.length_singleton]
      omega

theorem run_size_le (ops : List CacheOp) (c : BoundedTTLCache) (hcap : 0 < c.capacity)
    (hsize : c.size ≤ c.capacity) : (c.run ops).size ≤ c.capacity := by
  induction ops generalizing c with
  | nil => exact hsize
  | cons op ops ih =>
    show ((c.step op).run ops).size ≤ c.capacity
    cases op with
    | get now key =>
      have hc : (c.step (CacheOp.get now key)).capacity = c.capacity := get_capacity c now key
      rw [← hc]
      apply ih
      · rw [hc]
        exact hcap
      · rw [hc]
        exact Nat.le_trans (get_size_le c now key) hsize
    | put now key value =>
      have hc : (c.step (CacheOp.put now key value)).capacity = c.capacity :=
        put_capacity c now key value
      rw [← hc]
      apply ih
      · rw [hc]
        exact hcap
      · rw [hc]
        exact put_size_le c now key value hcap hsize

theorem putAll_full_or_all (puts : List (Nat × String × Json)) (c : BoundedTTLCache)
    (hcap : 0 < c.capacity) (hsize : c.size ≤ c.capacity) (hnd : c.keys.Nodup) :
    (c.putAll puts).keys.Nodup ∧ c.size ≤ (c.putAll puts).size ∧
    (c.putAll puts).size ≤ c.capacity ∧
    ((c.putAll puts).size = c.capacity ∨
      ∀ k ∈ c.keys ++ puts.map (fun p => p.2.1), k ∈ (c.putAll puts).keys) := by
  induction puts generalizing c with
  | nil =>
    refine ⟨hnd, Nat.le_refl _, hsize, Or.inr ?_⟩
    intro k hk
    simpa using hk
  | cons p puts ih =>
    have hc1 : (c.put p.1 p.2.1 p.2.2).capacity = c.capacity := put_capacity _ _ _ _
    have hs1 := put_size c p.1 p.2.1 p.2.2 hcap hsize hnd
    have hle1 : (c.put p.1 p.2.1 p.2.2).size ≤ c.capacity :=
      put_size_le c p.1 p.2.1 p.2.2 hcap hsize
    have hge1 : c.size ≤ (c.put p.1 p.2.1 p.2.2).size := by
      rw [hs1]
      split <;> omega
    obtain ⟨h1, h2, h3, h4⟩ := ih (c.put p.1 p.2.1 p.2.2) (by rw [hc1]; exact hcap)
      (by rw [hc1]; exact hle1) (put_nodup c p.1 p.2.1 p.2.2 hnd)
    rw [hc1] at h3 h4
    show ((c.put p.1 p.2.1 p.2.2).putAll puts).keys.Nodup ∧
      c.size ≤ ((c.put p.1 p.2.1 p.2.2).putAll puts).size ∧
      ((c.put p.1 p.2.1 p.2.2).putAll puts).size ≤ c.capacity ∧
      (((c.put p.1 p.2.1 p.2.2).putAll puts).size = c.capacity ∨
        ∀ k ∈ c.keys ++ (p :: puts).map (fun p => p.2.1),
          k ∈ ((c.put p.1 p.2.1 p.2.2).putAll puts).keys)
    refine ⟨h1, Nat.le_trans hge1 h2, h3, ?_⟩
    rcases h4 with h4 | h4
    · exact Or.inl h4
    · by_cases hroom : c.size < c.capacity
      · right
        intro k hk
        apply h4
        rcases List.mem_append.1 hk with hk | hk
        · exact List.mem_append_left _ (keys_subset_put c p.1 p.2.1 p.2.2 hroom k hk)
        · rcases List.mem_cons.1 hk with hk | hk
          · rw [hk]
            exact List.mem_append_left _ (mem_keys_put c p.1 p.2.1 p.2.2)
          · exact List.mem_append_right _ hk
      · left
        omega

theorem putAll_size_full (puts : List (Nat × String × Json)) (c : BoundedTTLCache)
    (hcap : 0 < c.capacity) (hsize : c.size ≤ c.capacity) (hnd : c.keys.Nodup)
    (hmore : c.capacity < (puts.map (fun p => p.2.1)).dedup.length) :
    (c.putAll puts).size = c.capacity := by
  obtain ⟨_, _, hle, h⟩ := putAll_full_or_all puts c hcap hsize hnd
  rcases h with h | h
  · exact h
  · have hsub : (puts.map (fun p => p.2.1)).dedup ⊆ (c.putAll puts).keys := by
      intro k hk
      exact h k (List.mem_append_right _ (List.mem_dedup.1 hk))
    have hlen := (List.subperm_of_subset (List.nodup_dedup _) hsub).length_le
    rw [← size_eq_length_keys] at hlen
    omega

theorem mem_evicted (c : BoundedTTLCache) (now : Nat) (key : String) (value : Json)
    (k : String) :
    k ∈ c.evicted now key value ↔ k ∈ c.keys ∧ k ∉ (c.put now key value).keys := by
  simp [BoundedTTLCache.evicted]

theorem mem_keys_get (c : BoundedTTLCache) (now : Nat) (key k : String) (hk : k ∈ c.keys)
    (hlive : key = k → ∀ e ∈ c.entries, e.key = k → now < e.expiresAt) :
    k ∈ (c.get now key).2.keys := by
  cases hfind : c.entries.find? (fun e => e.key == key) with
  | none =>
    rw [get_absent c now key hfind]
    exact hk
  | some e =>
    have hek : e.key = key := by simpa using List.find?_some hfind
    have hmem : e ∈ c.entries := List.mem_of_find?_eq_some hfind
    by_cases hkey : key = k
    · have hnow := hlive hkey e hmem (hek.trans hkey)
      rw [get_live c now key e hfind hnow]
      exact List.mem_map.2 ⟨e, List.mem_append_right _ (List.mem_singleton_self e),
        hek.trans hkey⟩
    · obtain ⟨x, hx, hxk⟩ := List.mem_map.1 hk
      have hxo : x ∈ c.others key := by
        refine List.mem_filter.2 ⟨hx, ?_⟩
        have : x.key ≠ key := fun h => hkey (h.symm.trans hxk)
        simpa using this
      by_cases hexp : e.expiresAt ≤ now
      · rw [get_expired c now key e hfind hexp]
        exact List.mem_map.2 ⟨x, hxo, hxk⟩
      · rw [get_live c now key e hfind (Nat.not_le.1 hexp)]
        exact List.mem_map.2 ⟨x, List.mem_append_left _ hxo, hxk⟩

theorem run_holds (ops : List CacheOp) (c : BoundedTTLCache) (k : String) (v : Json)
    (expires later : Nat) (hlater : later < expires)
    (hno : ∀ op ∈ ops, op.putsKey k = false) (htime : ∀ op ∈ ops, op.now ≤ later)
    (hev : k ∉ c.evictions ops)
    (hc : ∀ e ∈ c.entries, e.key = k → e.value = v ∧ e.expiresAt = expires)
    (hk : k ∈ c.keys) : k ∈ (c.run ops).keys := by
  induction ops generalizing c with
  | nil => exact hk
  | cons op ops ih =>
    show k ∈ ((c.step op).run ops).keys
    have hno1 : ∀ o ∈ ops, o.putsKey k = false :=
      fun o ho => hno o (List.mem_cons_of_mem _ ho)
    have htime1 : ∀ o ∈ ops, o.now ≤ later :=
      fun o ho => htime o (List.mem_cons_of_mem _ ho)
    have hc1 : ∀ e ∈ (c.step op).entries, e.key = k → e.value = v ∧ e.expiresAt = expires :=
      run_tagged [op] c k v expires
        (fun o ho => hno o (by rw [List.mem_singleton.1 ho]; exact List.mem_cons_self _ _)) hc
    cases op with
    | get now key =>
      refine ih (c.step (CacheOp.get now key)) hno1 htime1 hev hc1 ?_
      apply mem_keys_get c now key k hk
      intro _ e he hek
      have hnow : now ≤ later := htime (CacheOp.get now key) (List.mem_cons_self _ _)
      rw [(hc e he hek).2]
      omega
    | put now key value =>
      have hev2 : k ∉ c.evicted now key value ++ (c.put now key value).evictions ops := hev
      rw [List.mem_append, not_or] at hev2
      refine ih (c.step (CacheOp.put now key value)) hno1 htime1 hev2.2 hc1 ?_
      by_contra hout
      exact hev2.1 ((mem_evicted c now key value k).2 ⟨hk, hout⟩)

theorem recency_snoc (uses : List String) (k : String) :
    recency (uses ++ [k]) = (recency uses).filter (fun x => x != k) ++ [k] := by
  simp [recency, List.foldl_append]

theorem nodup_filter_snoc (l : List String) (k : String) (h : l.Nodup) :
    (l.filter (fun x => x != k) ++ [k]).Nodup := by
  refine List.nodup_append.2 ⟨h.filter _, List.nodup_singleton _, ?_⟩
  intro x hx hx1
  rw [List.mem_singleton.1 hx1] at hx
  simpa using (List.mem_filter.1 hx).2

theorem recency_nodup (uses : List String) : (recency uses).Nodup := by
  induction uses using List.reverseRecOn with
  | nil => exact List.nodup_nil
  | append_singleton us k ih =>
    rw [recency_snoc]
    exact nodup_filter_snoc _ k ih

theorem recency_of_nodup (uses : List String) (h : uses.Nodup) : recency uses = uses := by
  induction uses using List.reverseRecOn with
  | nil => rfl
  | append_singleton us k ih =>
    have hsplit := List.nodup_append.1 h
    rw [recency_snoc, ih hsplit.1]
    have hself : us.filter (fun x => x != k) = us := by
      rw [List.filter_eq_self]
      intro a ha
      have : a ≠ k := fun hak => hsplit.2.2 ha (by rw [hak]; exact List.mem_singleton_self _)
      simpa using this
    rw [hself]

theorem recency_order (uses : List String) :
    ∀ (front back : List String) (y z : String),
      recency uses = front ++ y :: back → z ∈ back →
      ∃ before after, uses = before ++ z :: after ∧ y ∉ z :: after := by
  induction uses using List.reverseRecOn with
  | nil =>
    intro front back y z h _
    have : ([] : List String) = front ++ y :: back := h
    simp at this
  | append_singleton us k ih =>
    intro front back y z h hz
    rw [recency_snoc] at h
    rcases List.eq_nil_or_concat back with hb | ⟨back1, last, hb⟩
    · rw [hb] at hz
      simp at hz
    · rw [List.concat_eq_append] at hb
      rw [hb, ← List.cons_append, ← List.append_assoc] at h
      have hlast : [k] = [last] :=
        List.append_inj_right' h (by simp)
      have hfront : (recency us).filter (fun x => x != k) = front ++ y :: back1 :=
        List.append_inj_left' h (by simp)
      have hk : last = k := by simpa using hlast.symm
      have hyk : y ≠ k := by
        have hy : y ∈ (recency us).filter (fun x => x != k) := by
          rw [hfront]
          exact List.mem_append_right _ (List.mem_cons_self _ _)
        simpa using (List.mem_filter.1 hy).2
      by_cases hzk : z = k
      · refine ⟨us, [], by rw [hzk], ?_⟩
        rw [hzk]
        simpa using hyk
      · have hz1 : z ∈ back1 := by
          rw [hb, List.mem_append] at hz
          rcases hz with hz | hz
          · exact hz
          · exact absurd ((List.mem_singleton.1 hz).trans hk) hzk
        obtain ⟨l1, l2, hl, _, hl2⟩ := List.filter_eq_append_iff.1 hfront
        obtain ⟨m1, m2, hm, _, _, hm2⟩ := List.filter_eq_cons_iff.1 hl2
        have hz2 : z ∈ m2 := by
          rw [← hm2] at hz1
          exact (List.mem_filter.1 hz1).1
        have hrec : recency us = (l1 ++ m1) ++ y :: m2 := by
          rw [hl, hm, List.append_assoc]
        obtain ⟨before, after, hus, hy⟩ := ih (l1 ++ m1) m2 y z hrec hz2
        refine ⟨before, after ++ [k], by rw [hus]; simp, ?_⟩
        intro hmem
        rcases List.mem_cons.1 hmem with hmem | hmem
        · exact hy (by rw [hmem]; exact List.mem_cons_self _ _)
        · rcases List.mem_append.1 hmem with hmem | hmem
          · exact hy (List.mem_cons_of_mem _ hmem)
          · exact hyk (List.mem_singleton.1 hmem)

theorem filter_ne_self (l : List String) (k : String) (h : k ∉ l) :
    l.filter (fun x => x != k) = l := by
  rw [List.filter_eq_self]
  intro a ha
  have : a ≠ k := fun hak => h (hak ▸ ha)
  simpa using this

theorem putAll_recency (c : BoundedTTLCache) (hcap : 0 < c.capacity)
    (hsize : c.size ≤ c.capacity) (hnodup : c.keys.Nodup)
    (puts : List (Nat × String × Json)) :
    ∃ front, recency (c.keys ++ puts.map (fun p => p.2.1)) = front ++ (c.putAll puts).keys ∧
      (front = [] ∨ (c.putAll puts).size = c.capacity) ∧
      (c.putAll puts).size ≤ c.capacity := by
  induction puts using List.reverseRecOn with
  | nil =>
    refine ⟨[], ?_, Or.inl rfl, hsize⟩
    simp [BoundedTTLCache.putAll, recency_of_nodup c.keys hnodup]
  | append_singleton ps p ih =>
    obtain ⟨front, hrec, hfull, hle⟩ := ih
    have hassoc : c.keys ++ (ps ++ [p]).map (fun p => p.2.1)
        = (c.keys ++ ps.map (fun p => p.2.1)) ++ [p.2.1] := by
      simp [List.map_append]
    have hnd : (front ++ (c.putAll ps).keys).Nodup := hrec ▸ recency_nodup _
    have hndk : (c.putAll ps).keys.Nodup := (List.nodup_append.1 hnd).2.1
    have hcapb : (c.putAll ps).capacity = c.capacity := putAll_capacity ps c
    rw [hassoc, recency_snoc, hrec, List.filter_append, putAll_snoc]
    by_cases hold : p.2.1 ∈ (c.putAll ps).keys
    · have hfront : p.2.1 ∉ front := fun hin => (List.nodup_append.1 hnd).2.2 hin hold
      refine ⟨front, ?_, ?_, ?_⟩
      · rw [keys_put_old _ _ _ _ hold, filter_ne_self front _ hfront, List.append_assoc]
      · rw [put_size _ _ _ _ (by rw [hcapb]; exact hcap) (by rw [hcapb]; exact hle) hndk,
          if_pos hold]
        exact hfull
      · rw [put_size _ _ _ _ (by rw [hcapb]; exact hcap) (by rw [hcapb]; exact hle) hndk,
          if_pos hold]
        exact hle
    · have hsz := put_size (c.putAll ps) p.1 p.2.1 p.2.2 (by rw [hcapb]; exact hcap)
        (by rw [hcapb]; exact hle) hndk
      rw [if_neg hold, hcapb] at hsz
      rw [keys_put_new _ _ _ _ hold, hcapb, filter_ne_self _ _ hold]
      by_cases hroom : c.capacity < (c.putAll ps).size + 1
      · rw [if_pos hroom]
        have hpos : 0 < (c.putAll ps).keys.length := by
          rw [← size_eq_length_keys]
          omega
        obtain ⟨hd, tl, hkeys⟩ := List.exists_cons_of_length_pos hpos
        refine ⟨front.filter (fun x => x != p.2.1) ++ [hd], ?_, Or.inr ?_, ?_⟩
        · rw [hkeys]
          simp
        · rw [hsz]
          omega
        · rw [hsz]
          omega
      · rw [if_neg hroom]
        have hfront : front = [] := by
          rcases hfull with h | h
          · exact h
          · omega
        refine ⟨[], ?_, Or.inl rfl, ?_⟩
        · rw [hfront]
          simp
        · rw [hsz]
          omega

theorem putAll_keys_recency (c : BoundedTTLCache) (hcap : 0 < c.capacity)
    (hsize : c.size ≤ c.capacity) (hnodup : c.keys.Nodup)
    (puts : List (Nat × String × Json)) :
    (c.putAll puts).keys = (recency (c.keys ++ puts.map (fun p => p.2.1))).drop
      ((recency (c.keys ++ puts.map (fun p => p.2.1))).length - c.capacity) := by
  obtain ⟨front, hrec, hfull, hle⟩ := putAll_recency c hcap hsize hnodup puts
  rw [hrec, List.length_append, ← size_eq_length_keys]
  rcases hfull with h | h
  · rw [h]
    have h0 : ([] : List String).length + (c.putAll puts).size - c.capacity = 0 := by
      simp
      omega
    rw [h0]
    rfl
  · rw [h, Nat.add_sub_cancel]
    exact (List.drop_left _ _).symm

theorem evicted_head (c : BoundedTTLCache) (now : Nat) (key : String) (value : Json)
    (y : String) (hsize : c.size ≤ c.capacity) (hnodup : c.keys.Nodup)
    (hy : y ∈ c.evicted now key value) :
    c.size = c.capacity ∧ key ∉ c.keys ∧ c.evicted now key value = [y] ∧
    ∃ rest, c.keys = y :: rest := by
  obtain ⟨hin, hout⟩ := (mem_evicted c now key value y).1 hy
  have hnew : key ∉ c.keys := by
    intro hold
    apply hout
    rw [keys_put_old c now key value hold]
    by_cases hyk : y = key
    · rw [hyk]
      exact List.mem_append_right _ (List.mem_singleton_self _)
    · exact List.mem_append_left _ (List.mem_filter.2 ⟨hin, by simpa using hyk⟩)
  have hkeys := keys_put_new c now key value hnew
  have hfull : c.capacity < c.size + 1 := by
    by_contra hroom
    rw [if_neg hroom] at hkeys
    exact hout (hkeys ▸ List.mem_append_left _ hin)
  rw [if_pos hfull] at hkeys
  cases hk : c.keys with
  | nil =>
    rw [hk] at hin
    simp at hin
  | cons hd tl =>
    rw [hk] at hkeys hin hnodup hnew
    have hytl : y ∉ tl := fun h => hout (hkeys ▸ List.mem_append_left _ h)
    have hyhd : y = hd := by
      rcases List.mem_cons.1 hin with h | h
      · exact h
      · exact absurd h hytl
    refine ⟨by omega, hnew, ?_, tl, by rw [hyhd]⟩
    have hhd : hd ∉ tl := (List.nodup_cons.1 hnodup).1
    have hhdk : hd ≠ key := fun h => hnew (h ▸ List.mem_cons_self _ _)
    unfold BoundedTTLCache.evicted
    rw [hkeys, hk, hyhd]
    rw [List.filter_cons_of_pos (by simp [hhd, hhdk])]
    congr 1
    rw [List.filter_eq_nil_iff]
    intro a ha
    simp [ha]

/-! ## The paths of `fetchUser` -/

/-- C1. Hit path: when the user name is not blank and `cache.get` yields a value
that passes `user != null`, the only call made is that `cache.get` (no request
and no `cache.put`), and the value published is the cached one with
`fromCache: true`. -/
theorem fetchUser_hit {C : Type} (api : CacheApi C) (env : Env) (s : UiState) (c : C)
    (user : Json) (hkey : jsTrim s.username ≠ "")
    (hget : (api.get c env.clockGet s.username).1 = some user)
    (hpresent : user ≠ Json.null) :
    (fetchUser api env s c).2.2 = [Event.cacheGet s.username] ∧
    (∀ e ∈ (fetchUser api env s c).2.2, e.isFetch = false ∧ e.isPut = false) ∧
    (fetchUser api env s c).1.userData = some { spread := user, fromCache := true } ∧
    (fetchUser api env s c).1.error = "" := by
  rw [fetchUser_hit_eq api env s c user hkey (notNull_of_present hget hpresent)]
  simp [Event.isFetch, Event.isPut]

/-- The hit path at a stored user: `octocat` typed in, the cache holding it. -/
theorem fetchUser_hit_witness :
    (fetchUser boundedApi (envAt 100 2 netDown) (typed "octocat") warm).2.2
      = [Event.cacheGet "octocat"] ∧
    (∀ e ∈ (fetchUser boundedApi (envAt 100 2 netDown) (typed "octocat") warm).2.2,
      e.isFetch = false ∧ e.isPut = false) ∧
    (fetchUser boundedApi (envAt 100 2 netDown) (typed "octocat") warm).1.userData
      = some { spread := octocat, fromCache := true } ∧
    (fetchUser boundedApi (envAt 100 2 netDown) (typed "octocat") warm).1.error = "" :=
  fetchUser_hit boundedApi (envAt 100 2 netDown) (typed "octocat") warm octocat
    (by decide) (by rfl) (by simp [octocat])

/-- C2. Successful miss path: when the user name is not blank, `cache.get` yields
nothing and the request for `https://api.github.com/users/` followed by that
user name is answered with `ok` and a body that decodes to `data`, whatever the
network answers to other requests, the calls made are `cache.get(username)`, the
request for that URL and `cache.put(username, data)` in this order, the cache is
left as that `put` leaves it, and `data` is published with `fromCache: false`. -/
theorem fetchUser_miss_ok {C : Type} (api : CacheApi C) (env : Env) (s : UiState) (c : C)
    (data : Json) (hkey : jsTrim s.username ≠ "")
    (hget : notNull (api.get c env.clockGet s.username).1 = none)
    (hfetch : env.fetch ("https://api.github.com/users/" ++ s.username)
      = Except.ok { ok := true, json := Except.ok data }) :
    (fetchUser api env s c).2.2 =
      [Event.cacheGet s.username,
        Event.fetch ("https://api.github.com/users/" ++ s.username),
        Event.cachePut s.username data] ∧
    (fetchUser api env s c).2.1 =
      api.put (api.get c env.clockGet s.username).2 env.clockPut s.username data ∧
    (fetchUser api env s c).1.userData = some { spread := data, fromCache := false } ∧
    (fetchUser api env s c).1.error = "" := by
  rw [fetchUser_miss_ok_eq api env s c data hkey hget (lookup_ok env _ data hfetch)]
  exact ⟨rfl, rfl, rfl, rfl⟩

/-- The successful miss path on the empty cache, on a network that answers the
request for `https://api.github.com/users/octocat` and no other. -/
theorem fetchUser_miss_ok_witness :
    (fetchUser boundedApi
      (envAt 100 250 (netOnly "https://api.github.com/users/octocat" octocat))
      (typed "octocat") cache).2.2 =
      [Event.cacheGet "octocat", Event.fetch "https://api.github.com/users/octocat",
        Event.cachePut "octocat" octocat] ∧
    (fetchUser boundedApi
      (envAt 100 250 (netOnly "https://api.github.com/users/octocat" octocat))
      (typed "octocat") cache).2.1 =
      boundedApi.put (boundedApi.get cache 101 "octocat").2 349 "octocat" octocat ∧
    (fetchUser boundedApi
      (envAt 100 250 (netOnly "https://api.github.com/users/octocat" octocat))
      (typed "octocat") cache).1.userData
      = some { spread := octocat, fromCache := false } ∧
    (fetchUser boundedApi
      (envAt 100 250 (netOnly "https://api.github.com/users/octocat" octocat))
      (typed "octocat") cache).1.error = "" :=
  fetchUser_miss_ok boundedApi
    (envAt 100 250 (netOnly "https://api.github.com/users/octocat" octocat))
    (typed "octocat") cache octocat (by decide) (by rfl) (by rfl)

/-- C3. Failure path: when the user name is not blank and `cache.get` yields
nothing, and the request is rejected with `message`, or is answered with a
response that is not `ok` (the error thrown then has the message
`User not found`), or the decoding of an `ok` response is rejected with
`message`, then `error` is exactly `message`, `userData` is `null`, and no
`cache.put` is made. -/
theorem fetchUser_miss_error {C : Type} (api : CacheApi C) (env : Env) (s : UiState)
    (c : C) (message : String) (hkey : jsTrim s.username ≠ "")
    (hget : notNull (api.get c env.clockGet s.username).1 = none)
    (hfail : env.fetch (userUrl s.username) = Except.error message ∨
      (∃ r, env.fetch (userUrl s.username) = Except.ok r ∧ r.ok = false ∧
        message = "User not found") ∨
      (∃ r, env.fetch (userUrl s.username) = Except.ok r ∧ r.ok = true ∧
        r.json = Except.error message)) :
    (fetchUser api env s c).1.error = message ∧
    (fetchUser api env s c).1.userData = none ∧
    (fetchUser api env s c).1.loading = false ∧
    (∀ e ∈ (fetchUser api env s c).2.2, e.isPut = false) := by
  rw [fetchUser_miss_error_eq api env s c message hkey hget (lookup_error env _ message hfail)]
  simp [Event.isPut]

/-- The failure path at a user GitHub does not know. -/
theorem fetchUser_miss_error_witness :
    (fetchUser boundedApi (envAt 100 250 netNotFound) (afterEarlier "no-such-user")
      warm).1.error = "User not found" ∧
    (fetchUser boundedApi (envAt 100 250 netNotFound) (afterEarlier "no-such-user")
      warm).1.userData = none ∧
    (fetchUser boundedApi (envAt 100 250 netNotFound) (afterEarlier "no-such-user")
      warm).1.loading = false ∧
    (∀ e ∈ (fetchUser boundedApi (envAt 100 250 netNotFound) (afterEarlier "no-such-user")
      warm).2.2, e.isPut = false) :=
  fetchUser_miss_error boundedApi (envAt 100 250 netNotFound) (afterEarlier "no-such-user")
    warm "User not found" (by decide) (by rfl)
    (Or.inr (Or.inl ⟨_, rfl, rfl, rfl⟩))

/-- C10. Blank-input guard: when the user name is empty after trimming, the call
changes neither the component state nor the cache and makes no call at all.  When
it is not, the calls made are `cache.get` with the untrimmed user name, then
possibly the request for `https://api.github.com/users/` followed by the
untrimmed user name, then possibly `cache.put` with the untrimmed user name; the
cache is left as that `get`, or that `get` and that `put`, leave it; and the
outcome depends on the network through its answer to that one URL only. -/
theorem fetchUser_guard {C : Type} (api : CacheApi C) (env : Env) (s : UiState) (c : C) :
    (jsTrim s.username = "" → fetchUser api env s c = (s, c, [])) ∧
    (jsTrim s.username ≠ "" →
      (((fetchUser api env s c).2.2 = [Event.cacheGet s.username] ∧
          (fetchUser api env s c).2.1 = (api.get c env.clockGet s.username).2) ∨
        ((fetchUser api env s c).2.2 = [Event.cacheGet s.username,
            Event.fetch ("https://api.github.com/users/" ++ s.username)] ∧
          (fetchUser api env s c).2.1 = (api.get c env.clockGet s.username).2) ∨
        (∃ data, (fetchUser api env s c).2.2 = [Event.cacheGet s.username,
            Event.fetch ("https://api.github.com/users/" ++ s.username),
            Event.cachePut s.username data] ∧
          (fetchUser api env s c).2.1 =
            api.put (api.get c env.clockGet s.username).2 env.clockPut s.username data)) ∧
      (∀ other : Env, other.clockStart = env.clockStart → other.clockGet = env.clockGet →
        other.clockPut = env.clockPut → other.clockEnd = env.clockEnd →
        other.fetch ("https://api.github.com/users/" ++ s.username)
          = env.fetch ("https://api.github.com/users/" ++ s.username) →
        fetchUser api other s c = fetchUser api env s c)) := by
  refine ⟨fetchUser_blank api env s c, fun hkey => ⟨?_, ?_⟩⟩
  · cases hget : notNull (api.get c env.clockGet s.username).1 with
    | some user =>
      rw [fetchUser_hit_eq api env s c user hkey hget]
      exact Or.inl ⟨rfl, rfl⟩
    | none =>
      cases hlook : lookup env s.username with
      | ok data =>
        rw [fetchUser_miss_ok_eq api env s c data hkey hget hlook]
        exact Or.inr (Or.inr ⟨data, rfl, rfl⟩)
      | error message =>
        rw [fetchUser_miss_error_eq api env s c message hkey hget hlook]
        exact Or.inr (Or.inl ⟨rfl, rfl⟩)
  · intro other hstart hget hput hend hfetch
    exact fetchUser_congr api env other s c hstart hget hput hend hfetch

/-- The guard at a user name of blanks, and at one with blanks around a name, on a
network that answers the request for `https://api.github.com/users/ octocat `,
blanks included, and no other. -/
theorem fetchUser_guard_witness :
    fetchUser boundedApi (envAt 100 250 (netOk octocat)) (afterEarlier " \t ") warm
      = (afterEarlier " \t ", warm, []) ∧
    (fetchUser boundedApi
      (envAt 100 250 (netOnly "https://api.github.com/users/ octocat " octocat))
      (typed " octocat ") warm).2.2
      = [Event.cacheGet " octocat ", Event.fetch "https://api.github.com/users/ octocat ",
          Event.cachePut " octocat " octocat] ∧
    (fetchUser boundedApi
      (envAt 100 250 (netOnly "https://api.github.com/users/ octocat " octocat))
      (typed " octocat ") warm).2.1.keys = ["octocat", " octocat "] :=
  ⟨(fetchUser_guard boundedApi (envAt 100 250 (netOk octocat)) (afterEarlier " \t ")
      warm).1 (by decide), by rfl, by decide⟩

/-- C4, as amended. For a user name that is not blank and any cache: on a
successful miss path one `cache.put` is made, and the
cache is left as that `put` leaves the cache the preceding `cache.get` left; on a
hit path and on a failed miss path no `cache.put` is made, and the cache is left
as the one `cache.get` of the call left it. -/
theorem fetchUser_cache_effects {C : Type} (api : CacheApi C) (env : Env) (s : UiState)
    (c : C) (hkey : jsTrim s.username ≠ "") :
    (∀ data, notNull (api.get c env.clockGet s.username).1 = none →
      lookup env s.username = Except.ok data →
      (fetchUser api env s c).2.2.countP Event.isPut = 1 ∧
      (fetchUser api env s c).2.1 =
        api.put (api.get c env.clockGet s.username).2 env.clockPut s.username data) ∧
    (∀ user, notNull (api.get c env.clockGet s.username).1 = some user →
      (fetchUser api env s c).2.2.countP Event.isPut = 0 ∧
      (fetchUser api env s c).2.1 = (api.get c env.clockGet s.username).2) ∧
    (∀ message, notNull (api.get c env.clockGet s.username).1 = none →
      lookup env s.username = Except.error message →
      (fetchUser api env s c).2.2.countP Event.isPut = 0 ∧
      (fetchUser api env s c).2.1 = (api.get c env.clockGet s.username).2) := by
  refine ⟨fun data hget hlook => ?_, fun user hget => ?_, fun message hget hlook => ?_⟩
  · rw [fetchUser_miss_ok_eq api env s c data hkey hget hlook]
    simp [List.countP_cons, Event.isPut]
  · rw [fetchUser_hit_eq api env s c user hkey hget]
    simp [List.countP_cons, Event.isPut]
  · rw [fetchUser_miss_error_eq api env s c message hkey hget hlook]
    simp [List.countP_cons, Event.isPut]

/-- The cache effects of the three paths on the configured cache. -/
theorem fetchUser_cache_effects_witness :
    ((fetchUser boundedApi (envAt 100 250 (netOk octocat)) (typed "octocat")
        cache).2.2.countP Event.isPut = 1 ∧
      (fetchUser boundedApi (envAt 100 250 (netOk octocat)) (typed "octocat") cache).2.1 =
        boundedApi.put (boundedApi.get cache 101 "octocat").2 349 "octocat" octocat) ∧
    ((fetchUser boundedApi (envAt 100 2 netDown) (typed "octocat") twoUsers).2.2.countP
        Event.isPut = 0 ∧
      (fetchUser boundedApi (envAt 100 2 netDown) (typed "octocat") twoUsers).2.1 =
        (boundedApi.get twoUsers 101 "octocat").2) :=
  ⟨(fetchUser_cache_effects boundedApi (envAt 100 250 (netOk octocat)) (typed "octocat")
      cache (by decide)).1 octocat (by rfl) (by rfl),
   (fetchUser_cache_effects boundedApi (envAt 100 2 netDown) (typed "octocat")
      twoUsers (by decide)).2.1 octocat (by rfl)⟩

/-- C4 as stated fails: a hit on `octocat` while `torvalds` is the most recently
used entry makes no `cache.put`, yet the cache is not left unchanged, because the
`cache.get` moved `octocat` to the most recently used end; and a failed miss on
`octocat` after its entry expired leaves a cache from which the `cache.get` removed
that entry. -/
theorem fetchUser_cache_unchanged_fails :
    ((fetchUser boundedApi (envAt 100 2 netDown) (typed "octocat") twoUsers).2.2
        = [Event.cacheGet "octocat"] ∧
      twoUsers.keys = ["octocat", "torvalds"] ∧
      (fetchUser boundedApi (envAt 100 2 netDown) (typed "octocat") twoUsers).2.1.keys
        = ["torvalds", "octocat"] ∧
      (fetchUser boundedApi (envAt 100 2 netDown) (typed "octocat") twoUsers).2.1.keys
        ≠ twoUsers.keys) ∧
    ((fetchUser boundedApi (envAt 70000 30 netDown) (typed "octocat") twoUsers).1.error
        = "Failed to fetch" ∧
      (fetchUser boundedApi (envAt 70000 30 netDown) (typed "octocat") twoUsers).2.2
        = [Event.cacheGet "octocat", Event.fetch (userUrl "octocat")] ∧
      (fetchUser boundedApi (envAt 70000 30 netDown) (typed "octocat") twoUsers).2.1.keys
        = ["torvalds"] ∧
      (fetchUser boundedApi (envAt 70000 30 netDown) (typed "octocat") twoUsers).2.1.keys
        ≠ twoUsers.keys) := by
  refine ⟨⟨by rfl, by decide, by decide, by decide⟩, by decide, by rfl, by decide, by decide⟩

/-- C7, as amended. On the hit path and on the successful miss path `requestTime`
is set to the clock reading taken at the end of the call minus the one taken at
its start. -/
theorem fetchUser_requestTime {C : Type} (api : CacheApi C) (env : Env) (s : UiState)
    (c : C) (hkey : jsTrim s.username ≠ "") :
    (∀ user, notNull (api.get c env.clockGet s.username).1 = some user →
      (fetchUser api env s c).1.requestTime
        = some ((env.clockEnd : Int) - (env.clockStart : Int))) ∧
    (∀ data, notNull (api.get c env.clockGet s.username).1 = none →
      lookup env s.username = Except.ok data →
      (fetchUser api env s c).1.requestTime
        = some ((env.clockEnd : Int) - (env.clockStart : Int))) := by
  refine ⟨fun user hget => ?_, fun data hget hlook => ?_⟩
  · rw [fetchUser_hit_eq api env s c user hkey hget]
  · rw [fetchUser_miss_ok_eq api env s c data hkey hget hlook]

/-- The elapsed time of a hit that took 2 ms and of a fetch that took 250 ms. -/
theorem fetchUser_requestTime_witness :
    (fetchUser boundedApi (envAt 100 2 netDown) (afterEarlier "octocat") warm).1.requestTime
      = some 2 ∧
    (fetchUser boundedApi (envAt 100 250 (netOk octocat)) (afterEarlier "octocat")
      cache).1.requestTime = some 250 :=
  ⟨(fetchUser_requestTime boundedApi (envAt 100 2 netDown) (afterEarlier "octocat") warm
      (by decide)).1 octocat (by rfl),
   (fetchUser_requestTime boundedApi (envAt 100 250 (netOk octocat))
      (afterEarlier "octocat") cache (by decide)).2 octocat (by rfl) (by rfl)⟩

/-- C7 as stated fails on the failed miss path: a call that starts at 100 and ends
at 350 with `User not found` leaves `requestTime` at 5, the value an earlier call
had set, and not at 250. -/
theorem fetchUser_requestTime_stale :
    (afterEarlier "no-such-user").requestTime = some 5 ∧
    (fetchUser boundedApi (envAt 100 250 netNotFound) (afterEarlier "no-such-user")
      warm).1.error = "User not found" ∧
    (fetchUser boundedApi (envAt 100 250 netNotFound) (afterEarlier "no-such-user")
      warm).1.requestTime = some 5 ∧
    ((envAt 100 250 netNotFound).clockEnd : Int) - ((envAt 100 250 netNotFound).clockStart : Int)
      = 250 ∧
    (fetchUser boundedApi (envAt 100 250 netNotFound) (afterEarlier "no-such-user")
      warm).1.requestTime ≠
      some (((envAt 100 250 netNotFound).clockEnd : Int)
        - ((envAt 100 250 netNotFound).clockStart : Int)) := by
  refine ⟨by rfl, by decide, by decide, by decide, by decide⟩

/-! ## Two calls in a row -/

/-- C5, as amended. With the cache of the specification and a user name that is
not blank: the first call for a user name the cache holds no entry for, answered
with `data`, publishes `data` with `fromCache: false`; and when a call has
published a value other than
`null`, after a successful miss or after a hit, the next call for the same user
name, reaching the cache before the entry expires, publishes the same value with
`fromCache: true` and makes no call besides its `cache.get`. -/
theorem fetchUser_provenance (c : BoundedTTLCache) (env1 env2 : Env) (s : UiState)
    (data : Json) (hkey : jsTrim s.username ≠ "") :
    (s.username ∉ c.keys →
      env1.fetch (userUrl s.username) = Except.ok { ok := true, json := Except.ok data } →
      (fetchUser boundedApi env1 s c).1.userData
        = some { spread := data, fromCache := false }) ∧
    (notNull (c.get env1.clockGet s.username).1 = none →
      lookup env1 s.username = Except.ok data → data ≠ Json.null →
      env2.clockGet < env1.clockPut + c.ttl →
      (fetchUser boundedApi env2 (fetchUser boundedApi env1 s c).1
        (fetchUser boundedApi env1 s c).2.1).1.userData
          = some { spread := data, fromCache := true } ∧
      (fetchUser boundedApi env2 (fetchUser boundedApi env1 s c).1
        (fetchUser boundedApi env1 s c).2.1).2.2 = [Event.cacheGet s.username]) ∧
    (∀ expires, (c.get env1.clockGet s.username).1 = some data → data ≠ Json.null →
      c.expiry s.username = some expires → env2.clockGet < expires →
      (fetchUser boundedApi env2 (fetchUser boundedApi env1 s c).1
        (fetchUser boundedApi env1 s c).2.1).1.userData
          = some { spread := data, fromCache := true } ∧
      (fetchUser boundedApi env2 (fetchUser boundedApi env1 s c).1
        (fetchUser boundedApi env1 s c).2.1).2.2 = [Event.cacheGet s.username]) := by
  refine ⟨fun hnew hfetch => ?_, fun hget hlook hdata hlater => ?_,
    fun expires hget hdata hexp hlater => ?_⟩
  · have hget : notNull (boundedApi.get c env1.clockGet s.username).1 = none := by
      show notNull (c.get env1.clockGet s.username).1 = none
      rw [get_absent c _ _ (find_none_of_not_mem c _ hnew)]
      rfl
    rw [fetchUser_miss_ok_eq boundedApi env1 s c data hkey hget (lookup_ok env1 _ data hfetch)]
  · have e1 := fetchUser_miss_ok_eq boundedApi env1 s c data hkey hget hlook
    apply fetchUser_hit_next boundedApi env2 _ _ data s.username
      (fetchUser_username boundedApi env1 s c) hkey
    rw [e1]
    apply notNull_of_present _ hdata
    show (((c.get env1.clockGet s.username).2.put env1.clockPut s.username data).get
      env2.clockGet s.username).1 = some data
    apply get_put_live
    rw [get_ttl]
    exact hlater
  · have h1 : notNull (boundedApi.get c env1.clockGet s.username).1 = some data :=
      notNull_of_present hget hdata
    have e1 := fetchUser_hit_eq boundedApi env1 s c data hkey h1
    apply fetchUser_hit_next boundedApi env2 _ _ data s.username
      (fetchUser_username boundedApi env1 s c) hkey
    rw [e1]
    exact notNull_of_present (get_after_hit c _ _ _ data expires hget hexp hlater) hdata

/-- The user `octocat` looked up twice in a row on the configured cache, the second
call starting 51 ms after the first one stored the record. -/
theorem fetchUser_provenance_witness :
    (fetchUser boundedApi (envAt 100 250 (netOk octocat)) (typed "octocat") cache).1.userData
      = some { spread := octocat, fromCache := false } ∧
    (fetchUser boundedApi (envAt 400 2 netDown)
      (fetchUser boundedApi (envAt 100 250 (netOk octocat)) (typed "octocat") cache).1
      (fetchUser boundedApi (envAt 100 250 (netOk octocat)) (typed "octocat")
        cache).2.1).1.userData = some { spread := octocat, fromCache := true } ∧
    (fetchUser boundedApi (envAt 400 2 netDown)
      (fetchUser boundedApi (envAt 100 250 (netOk octocat)) (typed "octocat") cache).1
      (fetchUser boundedApi (envAt 100 250 (netOk octocat)) (typed "octocat")
        cache).2.1).2.2 = [Event.cacheGet "octocat"] :=
  ⟨(fetchUser_provenance cache (envAt 100 250 (netOk octocat)) (envAt 400 2 netDown)
      (typed "octocat") octocat (by decide)).1 (by decide) (by rfl),
   (fetchUser_provenance cache (envAt 100 250 (netOk octocat)) (envAt 400 2 netDown)
      (typed "octocat") octocat (by decide)).2.1 (by rfl) (by rfl) (by simp [octocat])
      (by decide)⟩

/-- C5 as stated fails at a blank key and at the payload `null`.  The first call
for the key of two blanks makes no call and publishes nothing.  The first call for
`octocat` on the empty cache succeeds with the body `null` and stores it, and the
next call, 51 ms later with the entry still in the cache, fails the test
`user != null`, asks the network again and publishes `fromCache: false`. -/
theorem fetchUser_provenance_null :
    (fetchUser boundedApi (envAt 100 250 (netOk octocat)) (typed "  ") cache).2.2 = [] ∧
    (fetchUser boundedApi (envAt 100 250 (netOk octocat)) (typed "  ")
      cache).1.userData.map UserData.fromCache = none ∧
    (fetchUser boundedApi (envAt 100 250 (netOk Json.null)) (typed "octocat") cache).1.error
      = "" ∧
    ((fetchUser boundedApi (envAt 100 250 (netOk Json.null)) (typed "octocat")
      cache).1.userData.map UserData.fromCache) = some false ∧
    (fetchUser boundedApi (envAt 100 250 (netOk Json.null)) (typed "octocat")
      cache).2.1.keys = ["octocat"] ∧
    (fetchUser boundedApi (envAt 400 250 (netOk Json.null))
      (fetchUser boundedApi (envAt 100 250 (netOk Json.null)) (typed "octocat") cache).1
      (fetchUser boundedApi (envAt 100 250 (netOk Json.null)) (typed "octocat")
        cache).2.1).2.2 =
      [Event.cacheGet "octocat", Event.fetch (userUrl "octocat"),
        Event.cachePut "octocat" Json.null] ∧
    ((fetchUser boundedApi (envAt 400 250 (netOk Json.null))
      (fetchUser boundedApi (envAt 100 250 (netOk Json.null)) (typed "octocat") cache).1
      (fetchUser boundedApi (envAt 100 250 (netOk Json.null)) (typed "octocat")
        cache).2.1).1.userData.map UserData.fromCache) = some false := by
  refine ⟨by rfl, by decide, by decide, by decide, by decide, by rfl, by decide⟩

/-- C6. No pollution on failure, with the cache of the specification: when a call
for a user name misses the cache and its lookup fails, it makes no `cache.put` and
leaves the cache as its `cache.get` left it; the next call for the same user
name, whenever it comes and whatever the network answers then, misses the cache
again and asks the network again. -/
theorem fetchUser_no_pollution (c : BoundedTTLCache) (env1 env2 : Env) (s : UiState)
    (message : String) (hkey : jsTrim s.username ≠ "")
    (hget : notNull (c.get env1.clockGet s.username).1 = none)
    (hfail : lookup env1 s.username = Except.error message) :
    (∀ e ∈ (fetchUser boundedApi env1 s c).2.2, e.isPut = false) ∧
    (fetchUser boundedApi env1 s c).2.1 = (c.get env1.clockGet s.username).2 ∧
    notNull (((fetchUser boundedApi env1 s c).2.1).get env2.clockGet s.username).1 = none ∧
    (∃ rest, (fetchUser boundedApi env2 (fetchUser boundedApi env1 s c).1
        (fetchUser boundedApi env1 s c).2.1).2.2
      = Event.cacheGet s.username :: Event.fetch (userUrl s.username) :: rest) := by
  have e1 := fetchUser_miss_error_eq boundedApi env1 s c message hkey hget hfail
  have h2 : notNull (((fetchUser boundedApi env1 s c).2.1).get env2.clockGet s.username).1
      = none := by
    rw [e1]
    exact get_after_miss c env1.clockGet env2.clockGet s.username hget
  refine ⟨?_, ?_, h2, ?_⟩
  · rw [e1]
    simp [Event.isPut]
  · rw [e1]
    rfl
  · exact fetchUser_miss_next boundedApi env2 _ _ s.username
      (fetchUser_username boundedApi env1 s c) hkey h2

/-- A lookup of `octocat` that fails on a dead network, followed by one on a
working network. -/
theorem fetchUser_no_pollution_witness :
    (fetchUser boundedApi (envAt 400 250 (netOk octocat))
      (fetchUser boundedApi (envAt 100 30 netDown) (typed "octocat") cache).1
      (fetchUser boundedApi (envAt 100 30 netDown) (typed "octocat") cache).2.1).2.2
      = [Event.cacheGet "octocat", Event.fetch (userUrl "octocat"),
          Event.cachePut "octocat" octocat] ∧
    (∀ e ∈ (fetchUser boundedApi (envAt 100 30 netDown) (typed "octocat") cache).2.2,
      e.isPut = false) :=
  ⟨by rfl,
   (fetchUser_no_pollution cache (envAt 100 30 netDown) (envAt 400 250 (netOk octocat))
      (typed "octocat") "Failed to fetch" (by decide) (by rfl) (by rfl)).1⟩

/-! ## The cache of the specification -/

/-- C9. TTL invariant: after `put(k, v)` at time `t`, and any further calls on the
cache among which none is a `put` under `k`, a `get(k)` at a time of `t + ttl` or
later is absent; and a `get(k)` at a time before `t + ttl` returns `v` when no
`put` in between evicted `k` and the calls in between were made no later than
that `get`. -/
theorem ttl_invariant (c : BoundedTTLCache) (t : Nat) (k : String) (v : Json)
    (ops : List CacheOp) (later : Nat) (hno : ∀ op ∈ ops, op.putsKey k = false) :
    (t + c.ttl ≤ later → (((c.put t k v).run ops).get later k).1 = none) ∧
    (later < t + c.ttl → (∀ op ∈ ops, op.now ≤ later) →
      k ∉ (c.put t k v).evictions ops →
      (((c.put t k v).run ops).get later k).1 = some v) := by
  have htag := run_tagged ops (c.put t k v) k v (t + c.ttl) hno (put_tagged c t k v)
  refine ⟨(get_tagged _ k v (t + c.ttl) later htag).1, fun hlater htime hev => ?_⟩
  exact (get_tagged _ k v (t + c.ttl) later htag).2 hlater
    (run_holds ops (c.put t k v) k v (t + c.ttl) later hlater hno htime hev
      (put_tagged c t k v) (mem_keys_put c t k v))

/-- The configured cache with `octocat` stored at time 0, then `torvalds` stored
and read and `octocat` read, none of which evicts: `octocat` read at 59999 ms
and at 60000 ms. -/
theorem ttl_invariant_witness :
    (((cache.put 0 "octocat" octocat).run
        [CacheOp.put 20 "torvalds" Json.null, CacheOp.get 30 "torvalds",
          CacheOp.get 40 "octocat"]).get 60000 "octocat").1 = none ∧
    (((cache.put 0 "octocat" octocat).run
        [CacheOp.put 20 "torvalds" Json.null, CacheOp.get 30 "torvalds",
          CacheOp.get 40 "octocat"]).get 59999 "octocat").1 = some octocat :=
  ⟨(ttl_invariant cache 0 "octocat" octocat
      [CacheOp.put 20 "torvalds" Json.null, CacheOp.get 30 "torvalds",
        CacheOp.get 40 "octocat"] 60000 (by decide)).1 (by decide),
   (ttl_invariant cache 0 "octocat" octocat
      [CacheOp.put 20 "torvalds" Json.null, CacheOp.get 30 "torvalds",
        CacheOp.get 40 "octocat"] 59999 (by decide)).2 (by decide) (by decide) (by decide)⟩

/-- C8. Capacity invariant, for every capacity above zero (10 as configured) and
every cache that holds at most `capacity` entries under distinct keys, its keys
taken as used in the order held.  Whatever calls follow, the cache never holds
more than `capacity` entries.  After `put` calls under more than `capacity`
distinct keys it holds exactly `capacity` entries.  After any `put` calls, keys
repeated or not, the keys held are the last `capacity` keys of the history of
uses in order of their last use.  Whenever a further `put` evicts a key, the
cache was full, the key put is new, the evicted key is the only one evicted, and
every other key held was used after the last use of the evicted key; and a `put`
of a new key on the full cache does evict. -/
theorem capacity_invariant (c : BoundedTTLCache) (hcap : 0 < c.capacity)
    (hsize : c.size ≤ c.capacity) (hnodup : c.keys.Nodup) :
    (∀ ops : List CacheOp, (c.run ops).size ≤ c.capacity) ∧
    (∀ puts : List (Nat × String × Json),
      c.capacity < (puts.map (fun p => p.2.1)).dedup.length →
      (c.putAll puts).size = c.capacity) ∧
    (∀ puts : List (Nat × String × Json),
      (c.putAll puts).keys = (recency (c.keys ++ puts.map (fun p => p.2.1))).drop
        ((recency (c.keys ++ puts.map (fun p => p.2.1))).length - c.capacity)) ∧
    (∀ (puts : List (Nat × String × Json)) (now : Nat) (key : String) (value : Json)
      (y : String), y ∈ (c.putAll puts).evicted now key value →
      (c.putAll puts).size = c.capacity ∧ key ∉ (c.putAll puts).keys ∧
      (c.putAll puts).evicted now key value = [y] ∧
      ∀ z ∈ (c.putAll puts).keys, z ≠ y →
        ∃ before after, c.keys ++ puts.map (fun p => p.2.1) = before ++ z :: after ∧
          y ∉ z :: after) ∧
    (∀ (puts : List (Nat × String × Json)) (now : Nat) (key : String) (value : Json),
      key ∉ (c.putAll puts).keys → (c.putAll puts).size = c.capacity →
      (c.putAll puts).evicted now key value = (c.putAll puts).keys.take 1) := by
  refine ⟨fun ops => run_size_le ops c hcap hsize,
    fun puts hmore => putAll_size_full puts c hcap hsize hnodup hmore,
    fun puts => putAll_keys_recency c hcap hsize hnodup puts,
    fun puts now key value y hy => ?_, fun puts now key value hnew hfull => ?_⟩
  · obtain ⟨front, hrec, _, hle⟩ := putAll_recency c hcap hsize hnodup puts
    have hcapb : (c.putAll puts).capacity = c.capacity := putAll_capacity puts c
    have hndk : (c.putAll puts).keys.Nodup :=
      (putAll_full_or_all puts c hcap hsize hnodup).1
    obtain ⟨h1, h2, h3, rest, h4⟩ := evicted_head (c.putAll puts) now key value y
      (by rw [hcapb]; exact hle) hndk hy
    refine ⟨h1.trans hcapb, h2, h3, fun z hz hzy => ?_⟩
    rw [h4] at hrec hz
    have hzr : z ∈ rest := by
      rcases List.mem_cons.1 hz with h | h
      · exact absurd h hzy
      · exact h
    exact recency_order _ front rest y z hrec hzr
  · have hcapb : (c.putAll puts).capacity = c.capacity := putAll_capacity puts c
    have hndk : (c.putAll puts).keys.Nodup :=
      (putAll_full_or_all puts c hcap hsize hnodup).1
    have hkeys := keys_put_new (c.putAll puts) now key value hnew
    rw [if_pos (by rw [hcapb]; omega)] at hkeys
    cases hk : (c.putAll puts).keys with
    | nil =>
      have : (c.putAll puts).size = 0 := by rw [size_eq_length_keys, hk]; rfl
      omega
    | cons hd tl =>
      rw [hk] at hkeys hndk hnew
      have hhd : hd ∈ (c.putAll puts).evicted now key value := by
        rw [mem_evicted, hk, hkeys]
        refine ⟨List.mem_cons_self _ _, ?_⟩
        intro hmem
        rcases List.mem_append.1 hmem with h | h
        · exact (List.nodup_cons.1 hndk).1 h
        · exact hnew (by rw [List.mem_singleton.1 h]; exact List.mem_cons_self _ _)
      obtain ⟨_, _, h3, _⟩ := evicted_head (c.putAll puts) now key value hd
        (by rw [hcapb, hfull]) (by rw [hk]; exact hndk) hhd
      rw [h3]
      rfl

/-- Thirteen stores in the configured cache, which holds ten, the eleventh under
the key stored first: ten entries are left, and the keys evicted are the second
and the third stored, not the first, which was used again. -/
theorem capacity_invariant_witness :
    (cache.putAll thirteen).size = 10 ∧
    (cache.putAll thirteen).keys
      = ["u4", "u5", "u6", "u7", "u8", "u9", "u10", "u1", "u11", "u12"] ∧
    (cache.putAll (thirteen.take 11)).evicted 11000 "u11" (Json.str "k") = ["u2"] :=
  ⟨(capacity_invariant cache (by decide) (by decide) (by decide)).2.1 thirteen (by decide),
   by decide, by decide⟩

/-! ## Further properties of `fetchUser` -/

/-- A call with a user name that is not blank ends with `loading` false and the
user name untouched, whichever path it took; an error message is left only by the
failure path, the other two leave the empty string set on line 17. -/
theorem fetchUser_settles {C : Type} (api : CacheApi C) (env : Env) (s : UiState) (c : C)
    (hkey : jsTrim s.username ≠ "") :
    (fetchUser api env s c).1.loading = false ∧
    (fetchUser api env s c).1.username = s.username ∧
    ((fetchUser api env s c).1.userData ≠ none → (fetchUser api env s c).1.error = "") := by
  cases hget : notNull (api.get c env.clockGet s.username).1 with
  | some user =>
    rw [fetchUser_hit_eq api env s c user hkey hget]
    simp
  | none =>
    cases hlook : lookup env s.username with
    | ok data =>
      rw [fetchUser_miss_ok_eq api env s c data hkey hget hlook]
      simp
    | error message =>
      rw [fetchUser_miss_error_eq api env s c message hkey hget hlook]
      simp

/-- A lookup that fails while an earlier result is on display. -/
theorem fetchUser_settles_witness :
    (fetchUser boundedApi (envAt 100 250 netDown) (afterEarlier "torvalds") warm).1.loading
      = false ∧
    (fetchUser boundedApi (envAt 100 250 netDown) (afterEarlier "torvalds") warm).1.username
      = "torvalds" :=
  ⟨(fetchUser_settles boundedApi (envAt 100 250 netDown) (afterEarlier "torvalds") warm
      (by decide)).1,
   (fetchUser_settles boundedApi (envAt 100 250 netDown) (afterEarlier "torvalds") warm
      (by decide)).2.1⟩

/-- The calls one `fetchUser` makes are none at all, the `cache.get` alone, the
`cache.get` and the request, or the `cache.get`, the request and one `cache.put`
of what the request returned: never a `cache.put` without a request before it,
and never more than one call of a kind. -/
theorem fetchUser_trace_shape {C : Type} (api : CacheApi C) (env : Env) (s : UiState)
    (c : C) :
    (fetchUser api env s c).2.2 = [] ∨
    (fetchUser api env s c).2.2 = [Event.cacheGet s.username] ∨
    (fetchUser api env s c).2.2 = [Event.cacheGet s.username,
      Event.fetch ("https://api.github.com/users/" ++ s.username)] ∨
    (∃ data, lookup env s.username = Except.ok data ∧
      (fetchUser api env s c).2.2 = [Event.cacheGet s.username,
        Event.fetch ("https://api.github.com/users/" ++ s.username),
        Event.cachePut s.username data]) := by
  by_cases hkey : jsTrim s.username = ""
  · rw [fetchUser_blank api env s c hkey]
    exact Or.inl rfl
  · cases hget : notNull (api.get c env.clockGet s.username).1 with
    | some user =>
      rw [fetchUser_hit_eq api env s c user hkey hget]
      exact Or.inr (Or.inl rfl)
    | none =>
      cases hlook : lookup env s.username with
      | ok data =>
        rw [fetchUser_miss_ok_eq api env s c data hkey hget hlook]
        exact Or.inr (Or.inr (Or.inr ⟨data, rfl, rfl⟩))
      | error message =>
        rw [fetchUser_miss_error_eq api env s c message hkey hget hlook]
        exact Or.inr (Or.inr (Or.inl rfl))

end GithubFinder
